import Mathlib

/-!
Verification development for the asynchronous commit pipeline of the
TP3 processor service (`src/services/processor`): the pending ledger
(`state_store.py`), the finalizer and poll loop (`processor.py`), the
callback receiver (`webhook_server.py`) and the weather enrichment
client (`weather_client.py`).

Python dicts are modelled as insertion-ordered association lists;
floating-point times and coordinates as rationals; fallible external
calls (HTTP, provider) as `Option`-valued oracles supplied to each
operation; object-store side effects (uploads, deletions) as explicit
effect lists returned alongside the new state.
-/

namespace TP3

/-! ## Association lists: Python `dict` semantics (insertion order kept) -/

section AList

variable {κ : Type} {α : Type} [DecidableEq κ]

/-- `d.get(k)`: first binding for `k`, if any. -/
def alookup (l : List (κ × α)) (k : κ) : Option α :=
  match l with
  | [] => none
  | (k', v) :: t => if k' = k then some v else alookup t k

/-- `d[k] = v`: replace in place if the key exists, else append
(Python dicts keep the original position of an updated key). -/
def ainsert (l : List (κ × α)) (k : κ) (v : α) : List (κ × α) :=
  match l with
  | [] => [(k, v)]
  | (k', v') :: t => if k' = k then (k, v) :: t else (k', v') :: ainsert t k v

/-- `d.pop(k, None)` / `del d[k]`: drop every binding of `k`. -/
def aerase (l : List (κ × α)) (k : κ) : List (κ × α) :=
  l.filter (fun kv => kv.1 ≠ k)

@[simp] theorem alookup_nil (k : κ) : alookup ([] : List (κ × α)) k = none := rfl

@[simp] theorem alookup_cons (k' : κ) (v : α) (t : List (κ × α)) (k : κ) :
    alookup ((k', v) :: t) k = if k' = k then some v else alookup t k := rfl

theorem alookup_ainsert (l : List (κ × α)) (k : κ) (v : α) :
    alookup (ainsert l k v) k = some v := by
  induction l with
  | nil => simp [ainsert]
  | cons kv t ih =>
    obtain ⟨k', v'⟩ := kv
    by_cases h : k' = k <;> simp [ainsert, h, ih]

theorem alookup_ainsert_ne (l : List (κ × α)) (k k' : κ) (v : α) (h : k ≠ k') :
    alookup (ainsert l k v) k' = alookup l k' := by
  induction l with
  | nil => simp [ainsert, alookup, h]
  | cons kv t ih =>
    obtain ⟨k₀, v₀⟩ := kv
    by_cases hk : k₀ = k
    · subst hk
      simp [ainsert, alookup, h]
    · simp [ainsert, hk, alookup, ih]

theorem alookup_aerase_self (l : List (κ × α)) (k : κ) :
    alookup (aerase l k) k = none := by
  induction l with
  | nil => rfl
  | cons kv t ih =>
    obtain ⟨k', v'⟩ := kv
    by_cases h : k' = k
    · simpa [aerase, h] using ih
    · simpa [aerase, h] using ih

theorem alookup_eq_none_iff (l : List (κ × α)) (k : κ) :
    alookup l k = none ↔ ∀ kv ∈ l, kv.1 ≠ k := by
  induction l with
  | nil => simp
  | cons kv t ih =>
    obtain ⟨k', v'⟩ := kv
    by_cases h : k' = k <;> simp [alookup, h, ih]

theorem alookup_filter_of_ne (l : List (κ × α)) (p : κ × α → Bool) (k : κ)
    (h : ∀ v, p (k, v) = true) :
    alookup (l.filter p) k = alookup l k := by
  induction l with
  | nil => rfl
  | cons kv t ih =>
    obtain ⟨k', v'⟩ := kv
    by_cases hk : k' = k
    · subst hk
      simp [List.filter, h v', alookup, ih]
    · cases hp : p (k', v') <;> simp [List.filter, hp, alookup, hk, ih]

theorem alookup_isSome_of_mem (l : List (κ × α)) (k : κ) (v : α)
    (h : (k, v) ∈ l) : (alookup l k).isSome := by
  induction l with
  | nil => cases h
  | cons kv t ih =>
    obtain ⟨k', v'⟩ := kv
    rcases List.mem_cons.mp h with h1 | h2
    · cases h1
      simp [alookup]
    · by_cases hk : k' = k <;> simp [alookup, hk, ih h2]

end AList

/-! ## Ledger data model (`state_store.py` schema, `INIT_STATE`) -/

/-- A webhook callback payload body, after `json.loads`: the fields the
system ever reads (`request_id`, `status`, `db_document_id`, `error`),
each possibly absent. -/
structure Payload where
  request_id : Option String
  status : Option String
  db_document_id : Option String
  error : Option String
  deriving Repr, DecidableEq

/-- The all-absent payload, i.e. Python `{}` (used for empty or invalid
request bodies). -/
def Payload.empty : Payload := ⟨none, none, none, none⟩

/-- A stored webhook event: `{"received_at_utc": now, **payload}`
(`webhook_server.py` `_tx`). -/
structure WEvent where
  received_at_utc : String
  request_id : Option String
  status : Option String
  db_document_id : Option String
  error : Option String
  deriving Repr, DecidableEq

/-- A pending ingest entry as registered by `register_pending_ingest`. -/
structure PendingEntry where
  source_key : String
  mapped_local_path : String
  created_at_utc : String
  xml_service_response : String
  deriving Repr, DecidableEq

/-- An entry of `ingest_results` written by `finalize_ready_ingests`. -/
structure Outcome where
  request_id : String
  status : String
  db_document_id : Option String
  error : Option String
  xml_service_response : String
  webhook_event : WEvent
  deriving Repr, DecidableEq

/-- The persisted ledger state (`INIT_STATE` schema in `processor.py`,
`webhook_server.py` and `state_store.py` `setdefault`s). -/
structure LState where
  processed_keys : List String
  ingest_results : List (String × Outcome)
  pending_ingests : List (String × PendingEntry)
  webhook_events : List (String × WEvent)
  deriving Repr, DecidableEq

/-- `INIT_STATE`: the empty ledger. -/
def initState : LState := ⟨[], [], [], []⟩

/-- Observable object-store side effects of the finalizer. -/
inductive Effect where
  /-- `upload_processed_csv(s3, mapped_local_path, source_key)`. -/
  | upload (mapped_local_path : String) (source_key : String)
  /-- `delete_original(s3, source_key)`. -/
  | delete (source_key : String)
  deriving Repr, DecidableEq

/-- `OUT_PREFIX` default (`SUPABASE_PROCESSED_PREFIX`). -/
def OUT_PREFIX : String := "processed/"

/-- `os.path.basename`: the part after the last `/`. -/
def basename (k : String) : String := (k.splitOn "/").getLastD k

/-- Destination key computed by `upload_processed_csv`. -/
def out_key (original_key : String) : String :=
  OUT_PREFIX ++ (basename original_key).replace ".csv" "" ++ "_mapped.csv"

/-! ## Finalizer (`finalize_ready_ingests` in `processor.py`) -/

/-- Python `str.upper()` for the ASCII status strings involved
(character-wise `Char.toUpper`, written over `String.data` so that the
kernel can evaluate it). -/
def strUpper (s : String) : String := ⟨s.data.map Char.toUpper⟩

/-- `(ev.get("status") or "").upper()`. Python `or` yields the right
operand when `status` is absent; an empty-string status is also falsy,
and upper-casing `""` is `""` either way. -/
def evStatus (ev : WEvent) : String := strUpper (ev.status.getD "")

/-- Accumulator of the `for request_id, pinfo in list(pending.items())`
loop: the fields it mutates plus the collected `done_request_ids` and
the object-store effects it performs. -/
structure FinAcc where
  processed : List String
  results : List (String × Outcome)
  done : List String
  effs : List Effect
  deriving Repr, DecidableEq

/-- The `ingest_results` record written on the `status == "OK"` branch. -/
def okOutcome (request_id : String) (p : PendingEntry) (ev : WEvent) : Outcome :=
  { request_id := request_id
    status := "OK"
    db_document_id := ev.db_document_id
    error := none
    xml_service_response := p.xml_service_response
    webhook_event := ev }

/-- The `ingest_results` record written on the non-`"OK"` branch. -/
def errOutcome (request_id : String) (p : PendingEntry) (ev : WEvent) : Outcome :=
  { request_id := request_id
    status := evStatus ev
    db_document_id := none
    error := ev.error
    xml_service_response := p.xml_service_response
    webhook_event := ev }

/-- One iteration of the finalizer loop for the item `(request_id, pinfo)`. -/
def finStep (events : List (String × WEvent)) (acc : FinAcc)
    (it : String × PendingEntry) : FinAcc :=
  match alookup events it.1 with
  | none => acc
  | some ev =>
    if evStatus ev = "OK" then
      { processed :=
          if it.2.source_key ∈ acc.processed then acc.processed
          else acc.processed ++ [it.2.source_key]
        results := ainsert acc.results it.2.source_key (okOutcome it.1 it.2 ev)
        done := acc.done ++ [it.1]
        effs := acc.effs ++
          [Effect.upload it.2.mapped_local_path it.2.source_key,
           Effect.delete it.2.source_key] }
    else
      { processed := acc.processed
        results := ainsert acc.results it.2.source_key (errOutcome it.1 it.2 ev)
        done := acc.done ++ [it.1]
        effs := acc.effs }

/-- The cleanup block after the loop: `pending.pop(rid)` / `events.pop(rid)`
for every `rid` in `done_request_ids`, then write back both maps. -/
def finAssemble (s : LState) (acc : FinAcc) : LState × List Effect :=
  ({ processed_keys := acc.processed
     ingest_results := acc.results
     pending_ingests := acc.done.foldl (fun p rid => aerase p rid) s.pending_ingests
     webhook_events := acc.done.foldl (fun e rid => aerase e rid) s.webhook_events },
   acc.effs)

/-- `finalize_ready_ingests`: the `_tx` body run under the ledger lock,
returning the new state together with the uploads/deletions it performed.
(`if not pending: return` is the empty-pending early exit.) -/
def finalize (s : LState) : LState × List Effect :=
  if s.pending_ingests = [] then (s, [])
  else
    finAssemble s (s.pending_ingests.foldl (finStep s.webhook_events)
      ⟨s.processed_keys, s.ingest_results, [], []⟩)

/-- `register_pending_ingest`: its `_tx` body. -/
def register_pending_ingest (request_id : String) (entry : PendingEntry)
    (s : LState) : LState :=
  { s with pending_ingests := ainsert s.pending_ingests request_id entry }

/-! ## Basic lemmas about the finalizer loop -/

/-- The loop appends `request_id` to `done_request_ids` exactly when the
item has a matching event (both status branches append). -/
theorem finStep_done_eq (events : List (String × WEvent)) (acc : FinAcc)
    (it : String × PendingEntry) :
    (finStep events acc it).done =
      if (alookup events it.1).isSome then acc.done ++ [it.1] else acc.done := by
  unfold finStep
  cases hx : alookup events it.1 with
  | none => simp
  | some ev => by_cases hok : evStatus ev = "OK" <;> simp [hok]

theorem foldl_finStep_done_mono (events : List (String × WEvent))
    (l : List (String × PendingEntry)) (acc : FinAcc) (rid : String)
    (h : rid ∈ acc.done) :
    rid ∈ (l.foldl (finStep events) acc).done := by
  induction l generalizing acc with
  | nil => exact h
  | cons it t ih =>
    rw [List.foldl_cons]
    apply ih
    rw [finStep_done_eq]
    split
    · exact List.mem_append_left _ h
    · exact h

/-- Every pending item whose request id has a recorded event ends up in
`done_request_ids`. -/
theorem foldl_finStep_done_of_matched (events : List (String × WEvent))
    (l : List (String × PendingEntry)) (acc : FinAcc) (rid : String)
    (e : PendingEntry) (hmem : (rid, e) ∈ l)
    (hev : (alookup events rid).isSome) :
    rid ∈ (l.foldl (finStep events) acc).done := by
  induction l generalizing acc with
  | nil => cases hmem
  | cons it t ih =>
    rw [List.foldl_cons]
    rcases List.mem_cons.mp hmem with h1 | h2
    · apply foldl_finStep_done_mono
      rw [finStep_done_eq, ← h1]
      simp [hev]
    · exact ih _ h2

/-- `done_request_ids` only contains request ids of pending items. -/
theorem foldl_finStep_done_sub (events : List (String × WEvent))
    (l : List (String × PendingEntry)) (acc : FinAcc) (rid : String)
    (h : rid ∈ (l.foldl (finStep events) acc).done) :
    rid ∈ acc.done ∨ ∃ e, (rid, e) ∈ l := by
  induction l generalizing acc with
  | nil => exact Or.inl h
  | cons it t ih =>
    rw [List.foldl_cons] at h
    rcases ih _ h with h1 | h2
    · rw [finStep_done_eq] at h1
      split at h1
      · rcases List.mem_append.mp h1 with ha | hb
        · exact Or.inl ha
        · rcases List.mem_singleton.mp hb with rfl
          exact Or.inr ⟨it.2, List.mem_cons_self _ _⟩
      · exact Or.inl h1
    · exact Or.inr (h2.imp fun e he => List.mem_cons_of_mem _ he)

/-- If no pending item matches an event, the loop is the identity. -/
theorem foldl_finStep_id (events : List (String × WEvent))
    (l : List (String × PendingEntry)) (acc : FinAcc)
    (h : ∀ kv ∈ l, alookup events kv.1 = none) :
    l.foldl (finStep events) acc = acc := by
  induction l generalizing acc with
  | nil => rfl
  | cons it t ih =>
    have h1 : alookup events it.1 = none := h it (List.mem_cons_self _ _)
    have : finStep events acc it = acc := by unfold finStep; rw [h1]
    rw [List.foldl_cons, this]
    exact ih _ (fun kv hkv => h kv (List.mem_cons_of_mem _ hkv))

theorem mem_aerase {κ α : Type} [DecidableEq κ] (l : List (κ × α)) (k : κ)
    (kv : κ × α) : kv ∈ aerase l k ↔ kv ∈ l ∧ kv.1 ≠ k := by
  simp [aerase, List.mem_filter]

theorem mem_foldl_aerase {α : Type} (dl : List String)
    (l : List (String × α)) (kv : String × α) :
    kv ∈ dl.foldl (fun p rid => aerase p rid) l ↔ kv ∈ l ∧ kv.1 ∉ dl := by
  induction dl generalizing l with
  | nil => simp
  | cons d t ih =>
    rw [List.foldl_cons, ih, mem_aerase]
    constructor
    · rintro ⟨⟨hl, hne⟩, ht⟩
      refine ⟨hl, ?_⟩
      simp only [List.mem_cons, not_or]
      exact ⟨hne, ht⟩
    · rintro ⟨hl, hn⟩
      simp only [List.mem_cons, not_or] at hn
      exact ⟨⟨hl, hn.1⟩, hn.2⟩

theorem alookup_foldl_aerase_of_mem {α : Type} (dl : List String)
    (l : List (String × α)) (rid : String) (h : rid ∈ dl) :
    alookup (dl.foldl (fun p r => aerase p r) l) rid = none := by
  rw [alookup_eq_none_iff]
  intro kv hkv
  rcases (mem_foldl_aerase dl l kv).mp hkv with ⟨_, hnot⟩
  intro heq
  exact hnot (heq ▸ h)

theorem alookup_foldl_aerase_of_not_mem {α : Type} (dl : List String)
    (l : List (String × α)) (rid : String) (h : rid ∉ dl) :
    alookup (dl.foldl (fun p r => aerase p r) l) rid = alookup l rid := by
  induction dl generalizing l with
  | nil => rfl
  | cons d t ih =>
    have hd : rid ≠ d := fun he => h (he ▸ List.mem_cons_self _ _)
    rw [List.foldl_cons, ih _ (fun ht => h (List.mem_cons_of_mem _ ht))]
    exact alookup_filter_of_ne l _ rid (fun v => by simp [hd])

/-! ## Idempotence of the finalizer -/

/-- When no pending item has a matching event, the finalizer transaction
leaves the state unchanged and performs no object-store effect. -/
theorem finalize_no_match (s : LState)
    (h : ∀ kv ∈ s.pending_ingests, alookup s.webhook_events kv.1 = none) :
    finalize s = (s, []) := by
  unfold finalize
  by_cases h0 : s.pending_ingests = []
  · rw [if_pos h0]
  · rw [if_neg h0, foldl_finStep_id _ _ _ h]
    unfold finAssemble
    simp

/-- After one finalizer run, every remaining pending entry has no
matching event left in the ledger. -/
theorem finalize_pending_unmatched (s : LState) :
    ∀ kv ∈ (finalize s).1.pending_ingests,
      alookup (finalize s).1.webhook_events kv.1 = none := by
  intro kv hkv
  by_cases h0 : s.pending_ingests = []
  · unfold finalize at hkv ⊢
    rw [if_pos h0] at hkv ⊢
    rw [h0] at hkv
    cases hkv
  · unfold finalize at hkv ⊢
    rw [if_neg h0] at hkv ⊢
    unfold finAssemble at hkv ⊢
    simp only at hkv ⊢
    rcases (mem_foldl_aerase _ _ _).mp hkv with ⟨hmem, hnot⟩
    have hnone : alookup s.webhook_events kv.1 = none := by
      cases hx : alookup s.webhook_events kv.1 with
      | none => rfl
      | some ev =>
        exfalso
        apply hnot
        exact foldl_finStep_done_of_matched s.webhook_events s.pending_ingests
          _ kv.1 kv.2 (by simpa using hmem) (by simp [hx])
    rw [alookup_foldl_aerase_of_not_mem _ _ _ hnot, hnone]

/-- C2: `finalize_ready_ingests` is idempotent — a second run with no new
callback events in between returns the same ledger state and performs no
uploads, deletions, or state mutations. -/
theorem finalize_ready_ingests_idempotent (s : LState) :
    finalize ((finalize s).1) = ((finalize s).1, []) :=
  finalize_no_match _ (finalize_pending_unmatched s)

/-! ## Finalization of a non-OK entry (frame conditions) -/

/-- Running the loop over a pending map whose only matched entry is
`(rid, p)`, with a non-`"OK"` event, just records the failure outcome and
marks `rid` done; no effect is performed and `processed` is untouched. -/
theorem foldl_finStep_single_error (events : List (String × WEvent))
    (l : List (String × PendingEntry)) (rid : String) (p : PendingEntry)
    (ev : WEvent) (hev : alookup events rid = some ev)
    (hst : evStatus ev ≠ "OK") :
    ∀ acc : FinAcc, (l.map Prod.fst).Nodup → (rid, p) ∈ l →
      (∀ kv ∈ l, kv.1 ≠ rid → alookup events kv.1 = none) →
      l.foldl (finStep events) acc =
        { processed := acc.processed
          results := ainsert acc.results p.source_key (errOutcome rid p ev)
          done := acc.done ++ [rid]
          effs := acc.effs } := by
  induction l with
  | nil => intro acc _ hmem _; cases hmem
  | cons it t ih =>
    intro acc hnodup hmem honly
    rw [List.foldl_cons]
    by_cases hit : it.1 = rid
    · have hnotin : rid ∉ t.map Prod.fst := by
        rw [List.map_cons, List.nodup_cons] at hnodup
        rw [← hit]
        exact hnodup.1
      have hitp : it = (rid, p) := by
        rcases List.mem_cons.mp hmem with h1 | h2
        · exact h1.symm
        · exact absurd (List.mem_map_of_mem Prod.fst h2) (by simpa using hnotin)
      subst hitp
      have hstep : finStep events acc (rid, p) =
          { processed := acc.processed
            results := ainsert acc.results p.source_key (errOutcome rid p ev)
            done := acc.done ++ [rid]
            effs := acc.effs } := by
        simp [finStep, hev, hst]
      rw [hstep]
      exact foldl_finStep_id _ _ _ (fun kv hkv =>
        honly kv (List.mem_cons_of_mem _ hkv)
          (fun he => hnotin (he ▸ List.mem_map_of_mem Prod.fst hkv)))
    · have hskip : finStep events acc it = acc := by
        unfold finStep
        rw [honly it (List.mem_cons_self _ _) hit]
      rw [hskip]
      have hmem' : (rid, p) ∈ t := by
        rcases List.mem_cons.mp hmem with h1 | h2
        · exact absurd (congrArg Prod.fst h1.symm) hit
        · exact h2
      exact ih acc (by rw [List.map_cons, List.nodup_cons] at hnodup; exact hnodup.2)
        hmem' (fun kv hkv => honly kv (List.mem_cons_of_mem _ hkv))

/-- C5: finalizing a pending entry whose matching callback event has a
non-`"OK"` status records the failure outcome (capturing the event's
error) and removes both the pending entry and the event in the same
transaction; the source object is not deleted, no artifact is uploaded,
and `processed_keys` is unchanged. -/
theorem finalize_error_frame (s : LState) (rid : String) (p : PendingEntry)
    (ev : WEvent)
    (hnodup : (s.pending_ingests.map Prod.fst).Nodup)
    (hmem : (rid, p) ∈ s.pending_ingests)
    (hev : alookup s.webhook_events rid = some ev)
    (hst : evStatus ev ≠ "OK")
    (honly : ∀ kv ∈ s.pending_ingests, kv.1 ≠ rid →
      alookup s.webhook_events kv.1 = none) :
    finalize s =
      ({ processed_keys := s.processed_keys
         ingest_results := ainsert s.ingest_results p.source_key (errOutcome rid p ev)
         pending_ingests := aerase s.pending_ingests rid
         webhook_events := aerase s.webhook_events rid }, []) := by
  have hne : s.pending_ingests ≠ [] := by
    intro h
    rw [h] at hmem
    cases hmem
  unfold finalize
  rw [if_neg hne,
    foldl_finStep_single_error s.webhook_events s.pending_ingests rid p ev hev hst
      _ hnodup hmem honly]
  unfold finAssemble
  simp

/-- Concrete run of `finalize_error_frame`: one pending entry, one
`status=ERROR` event (spec scenario C). -/
def wP5 : PendingEntry := ⟨"incoming/a.csv", "tmp/a_mapped.csv", "t0", "resp"⟩

/-- The `status=ERROR, error="schema mismatch"` callback event. -/
def wEv5 : WEvent := ⟨"t1", some "r1", some "ERROR", none, some "schema mismatch"⟩

/-- Ledger with one pending entry `r1` and its error event. -/
def wS5 : LState := ⟨["incoming/old.csv"], [], [("r1", wP5)], [("r1", wEv5)]⟩

/-! ## Atomic persistence (`state_store.py`) -/

/-- The two on-disk files `_atomic_write_json path data` touches: the
target path and its uniquely-named temporary sibling created by
`tempfile.mkstemp` in the same directory. Contents are byte lists. -/
structure FS where
  target : Option (List Nat)
  tmp : Option (List Nat)
  deriving Repr, DecidableEq

/-- The observable on-disk states at every crash point of
`_atomic_write_json`: before `mkstemp`; after `mkstemp` with any prefix
of `data` written to the temp file (`json.dump` may be interrupted
mid-write; `flush`/`fsync` make the full prefix durable before the
rename); and after `os.replace`, which on POSIX atomically installs the
temp file's content under the target path. -/
def atomicWriteTrace (old : Option (List Nat)) (data : List Nat) : List FS :=
  ⟨old, none⟩ ::
    (List.range (data.length + 1)).map (fun i => ⟨old, some (data.take i)⟩)
    ++ [⟨some data, none⟩]

/-- `with_locked_state path init_state fn`: under the exclusive lock it
loads the current state from the target file (or starts from
`init_state` when the file is absent), applies `fn`, and persists the
result with `_atomic_write_json`. `enc` is the JSON serialization; `disk`
is the pre-transaction file content (a previously persisted state, or
absent). The trace lists the target/temp file contents at every crash
point of the transaction. -/
def transactionTrace (enc : LState → List Nat) (disk : Option LState)
    (init : LState) (fn : LState → LState) : List FS :=
  atomicWriteTrace (disk.map enc) (enc (fn (disk.getD init)))

theorem getLast?_cons_append_singleton {α : Type} (a b : α) (l : List α) :
    (a :: (l ++ [b])).getLast? = some b := by
  induction l generalizing a with
  | nil => rfl
  | cons x t ih =>
    rw [List.cons_append, List.getLast?_cons_cons]
    exact ih x

theorem mem_atomicWriteTrace (old : Option (List Nat)) (data : List Nat)
    (fs : FS) (h : fs ∈ atomicWriteTrace old data) :
    fs.target = old ∨ fs.target = some data := by
  rcases List.mem_cons.mp h with h0 | h1
  · subst h0
    exact Or.inl rfl
  · rcases List.mem_append.mp h1 with h2 | h3
    · rcases List.mem_map.mp h2 with ⟨i, _, hi⟩
      subst hi
      exact Or.inl rfl
    · rcases List.mem_singleton.mp h3 with rfl
      exact Or.inr rfl

/-- C1: crash safety of ledger transactions. At every crash point during
`with_locked_state` the target file holds either the pre-transaction
serialized state or the post-transaction one — never a partial write —
and an uninterrupted run ends with the post-transaction state installed
and the temp file gone. -/
theorem ledger_transaction_crash_safe (enc : LState → List Nat)
    (disk : Option LState) (init : LState) (fn : LState → LState) (fs : FS)
    (h : fs ∈ transactionTrace enc disk init fn) :
    (fs.target = disk.map enc ∨
      fs.target = some (enc (fn (disk.getD init)))) ∧
    (transactionTrace enc disk init fn).getLast? =
      some ⟨some (enc (fn (disk.getD init))), none⟩ := by
  refine ⟨mem_atomicWriteTrace _ _ fs h, ?_⟩
  unfold transactionTrace atomicWriteTrace
  exact getLast?_cons_append_singleton _ _ _

/-- Byte encoding used in the concrete crash-safety run. -/
def wEnc1 (s : LState) : List Nat :=
  [s.processed_keys.length, s.pending_ingests.length, s.webhook_events.length]

theorem ledger_transaction_crash_safe_witness :
    ((⟨some (wEnc1 (register_pending_ingest "r1" wP5 initState)), none⟩ :
        FS).target = (some initState).map wEnc1 ∨
      (⟨some (wEnc1 (register_pending_ingest "r1" wP5 initState)), none⟩ :
        FS).target =
        some (wEnc1 (register_pending_ingest "r1" wP5
          ((some initState).getD initState)))) ∧
    (transactionTrace wEnc1 (some initState) initState
        (register_pending_ingest "r1" wP5)).getLast? =
      some ⟨some (wEnc1 (register_pending_ingest "r1" wP5
        ((some initState).getD initState))), none⟩ :=
  ledger_transaction_crash_safe wEnc1 (some initState) initState
    (register_pending_ingest "r1" wP5)
    ⟨some (wEnc1 (register_pending_ingest "r1" wP5 initState)), none⟩
    (by decide)

/-! ## Callback receiver (`webhook_server.py` `Handler.do_POST`) -/

/-- `x or default` on an optional string field: Python `or` falls through
on `None` and on the empty string. -/
def orDefault (o : Option String) (d : String) : String :=
  match o with
  | none => d
  | some s => if s = "" then d else s

/-- The stored event `{"received_at_utc": now, **payload}`: the spread
keeps the raw (non-defaulted) payload fields. -/
def eventOfPayload (now : String) (p : Payload) : WEvent :=
  { received_at_utc := now
    request_id := p.request_id
    status := p.status
    db_document_id := p.db_document_id
    error := p.error }

/-- The receiver's `_tx`: upsert one event under
`payload.get("request_id") or "unknown"` (last write wins). -/
def webhook_tx (payload : Payload) (now : String) (s : LState) : LState :=
  { s with
      webhook_events := ainsert s.webhook_events
        (orDefault payload.request_id "unknown") (eventOfPayload now payload) }

/-- An HTTP response as the handler produces it: status code, and whether
the body is `{"ok": true}`. -/
structure HResp where
  code : Nat
  ok : Bool
  deriving Repr, DecidableEq

/-- The request body as `do_POST` sees it after
`payload = json.loads(raw) if raw else {}`. Only `json.loads` is inside
the `try`, so four cases are observable: an empty body (parsed as `{}`),
invalid JSON (the `except` yields `{}`), a JSON object (a dict), and
valid JSON whose top-level value is not an object (`null`, a list, a
number, a string) — a dict-free value that the later `payload.get`
cannot handle. -/
inductive Body where
  /-- `Content-Length` 0: `raw` is empty, `payload = {}`. -/
  | empty
  /-- Invalid JSON: `json.loads` raises, the `except` yields `{}`. -/
  | invalid
  /-- Valid JSON object with the fields the system reads. -/
  | obj (p : Payload)
  /-- Valid JSON whose top-level value is not an object. -/
  | nonObject
  deriving Repr, DecidableEq

/-- `Handler.do_POST`. Returns the response actually sent (`none` when
the handler raises before responding), the new ledger state, and how
many ledger transactions were opened. For a valid-JSON non-object body,
`json.loads` succeeds but `payload.get("request_id")` — outside the
`try` — raises `AttributeError`, so no response is sent and no
transaction is opened. -/
def do_POST (path : String) (body : Body) (now : String)
    (s : LState) : Option HResp × LState × Nat :=
  if path ≠ "/webhook/xml-status" then (some ⟨404, false⟩, s, 0)
  else
    match body with
    | .empty => (some ⟨200, true⟩, webhook_tx Payload.empty now s, 1)
    | .invalid => (some ⟨200, true⟩, webhook_tx Payload.empty now s, 1)
    | .obj p => (some ⟨200, true⟩, webhook_tx p now s, 1)
    | .nonObject => (none, s, 0)

/-- Counterexample to C6 as stated: a valid-JSON non-object body (for
example `null` or `[1]`) is not "recorded as a placeholder event": the
handler raises `AttributeError` at `payload.get("request_id")` before
any ledger transaction or response, so the receiver does not respond
`200 {ok:true}` and the ledger is untouched. -/
theorem do_POST_non_object_no_response :
    do_POST "/webhook/xml-status" Body.nonObject "t0" initState =
      (none, initState, 0) ∧
    (do_POST "/webhook/xml-status" Body.nonObject "t0" initState).1 ≠
      some ⟨200, true⟩ ∧
    (do_POST "/webhook/xml-status" Body.nonObject "t0" initState).2.2
      = 0 := by
  decide

/-- C6 (amended): for every `POST` to the callback endpoint path whose
body is empty, invalid JSON, or a JSON object, the receiver opens
exactly one ledger transaction upserting exactly one event keyed by the
payload's (defaulted) correlation id — overwriting any prior event under
that id — and responds `200 {ok:true}`; an empty or invalid body is
recorded as a placeholder event under the id `"unknown"`. A valid-JSON
non-object body is the exception: the handler raises before opening a
transaction or responding. -/
theorem do_POST_webhook_contract (p : Payload) (now : String)
    (s : LState) :
    do_POST "/webhook/xml-status" (Body.obj p) now s =
      (some ⟨200, true⟩, webhook_tx p now s, 1) ∧
    do_POST "/webhook/xml-status" Body.empty now s =
      (some ⟨200, true⟩, webhook_tx Payload.empty now s, 1) ∧
    do_POST "/webhook/xml-status" Body.invalid now s =
      (some ⟨200, true⟩, webhook_tx Payload.empty now s, 1) ∧
    alookup (webhook_tx p now s).webhook_events
        (orDefault p.request_id "unknown") = some (eventOfPayload now p) ∧
    orDefault Payload.empty.request_id "unknown" = "unknown" ∧
    do_POST "/webhook/xml-status" Body.nonObject now s = (none, s, 0) := by
  refine ⟨?_, ?_, ?_, alookup_ainsert _ _ _, by decide, ?_⟩ <;>
    · unfold do_POST
      rw [if_neg (by simp)]

/-! ## Ledger operation traces -/

/-- The three operations that touch the ledger (webhook receiver, the
finalizer, the submission coordinator's registration). -/
inductive Op where
  /-- The receiver handles a callback `POST` that opens a transaction:
  `p = some payload` for a JSON-object body, `none` for an empty or
  invalid body (treated as `{}`). A valid-JSON non-object body raises
  before any transaction, so it contributes no operation. -/
  | record (p : Option Payload) (now : String)
  /-- The poll loop runs `finalize_ready_ingests`. -/
  | fin
  /-- The coordinator runs `register_pending_ingest`. -/
  | reg (request_id : String) (entry : PendingEntry)
  deriving Repr, DecidableEq

/-- Whether an operation registers the given request id. -/
def Op.regOf : Op → String → Bool
  | .reg r _, rid => r = rid
  | _, _ => false

/-- Apply one operation; collect its object-store effects. -/
def applyOp (s : LState) : Op → LState × List Effect
  | .record p now => (webhook_tx (p.getD Payload.empty) now s, [])
  | .fin => finalize s
  | .reg rid e => (register_pending_ingest rid e s, [])

/-- Run a list of operations from a state, accumulating effects. -/
def run (s : LState) : List Op → LState × List Effect
  | [] => (s, [])
  | op :: t => ((run (applyOp s op).1 t).1, (applyOp s op).2 ++ (run (applyOp s op).1 t).2)

theorem alookup_ainsert_isSome {κ α : Type} [DecidableEq κ]
    (l : List (κ × α)) (k k' : κ) (v : α) (h : (alookup l k).isSome) :
    (alookup (ainsert l k' v) k).isSome := by
  by_cases he : k' = k
  · subst he
    rw [alookup_ainsert]
    rfl
  · rw [alookup_ainsert_ne _ _ _ _ he]
    exact h

/-- An unmatched request id keeps its event and stays out of `pending`
across one finalizer run, with the stored event's value untouched. -/
theorem finalize_orphan_frame (s : LState) (rid : String)
    (hp : alookup s.pending_ingests rid = none) :
    alookup (finalize s).1.webhook_events rid = alookup s.webhook_events rid ∧
    alookup (finalize s).1.pending_ingests rid = none := by
  by_cases h0 : s.pending_ingests = []
  · unfold finalize
    rw [if_pos h0]
    exact ⟨rfl, hp⟩
  · unfold finalize
    rw [if_neg h0]
    unfold finAssemble
    simp only
    have hdone : rid ∉ (s.pending_ingests.foldl (finStep s.webhook_events)
        ⟨s.processed_keys, s.ingest_results, [], []⟩).done := by
      intro hmem
      rcases foldl_finStep_done_sub _ _ _ _ hmem with h1 | ⟨e, h2⟩
      · cases h1
      · have := alookup_isSome_of_mem _ _ _ h2
        rw [hp] at this
        cases this
    rw [alookup_foldl_aerase_of_not_mem _ _ _ hdone,
      alookup_foldl_aerase_of_not_mem _ _ _ hdone, hp]
    exact ⟨rfl, rfl⟩

/-- C10: a callback event whose correlation id has no pending entry (a
late or duplicate callback, or a malformed one recorded under
`"unknown"`) is never removed: across any sequence of receiver, finalizer
and registration operations that never registers that id, the event stays
in the ledger's event map and the id stays out of `pending`; in
particular one finalizer run leaves the stored event value unchanged. -/
theorem orphan_events_persist (s : LState) (rid : String) (ops : List Op)
    (hev : (alookup s.webhook_events rid).isSome)
    (hp : alookup s.pending_ingests rid = none)
    (hreg : ∀ op ∈ ops, op.regOf rid = false) :
    ((alookup (run s ops).1.webhook_events rid).isSome ∧
      alookup (run s ops).1.pending_ingests rid = none) ∧
    ∀ ev, alookup s.webhook_events rid = some ev →
      alookup (finalize s).1.webhook_events rid = some ev := by
  refine ⟨?_, fun ev he => by rw [(finalize_orphan_frame s rid hp).1, he]⟩
  induction ops generalizing s with
  | nil => exact ⟨hev, hp⟩
  | cons op t ih =>
    have hstep : (alookup (applyOp s op).1.webhook_events rid).isSome ∧
        alookup (applyOp s op).1.pending_ingests rid = none := by
      cases op with
      | record p now =>
        constructor
        · simp only [applyOp, webhook_tx]
          exact alookup_ainsert_isSome _ _ _ _ hev
        · simp only [applyOp, webhook_tx]
          exact hp
      | fin =>
        rcases finalize_orphan_frame s rid hp with ⟨h1, h2⟩
        exact ⟨h1 ▸ hev, h2⟩
      | reg r e =>
        have hr : r ≠ rid := by
          have := hreg _ (List.mem_cons_self _ _)
          simpa [Op.regOf] using this
        refine ⟨hev, ?_⟩
        unfold applyOp register_pending_ingest
        simpa [alookup_ainsert_ne _ _ _ _ hr] using hp
    exact ih _ hstep.1 hstep.2 (fun o ho => hreg o (List.mem_cons_of_mem _ ho))

/-! ## Counting uploads and pending entries per source key -/

/-- Is this effect an upload of the artifact mapped from `k`? -/
def isUploadFor (k : String) : Effect → Bool
  | .upload _ sk => sk = k
  | .delete _ => false

/-- Number of uploads for source key `k` in an effect list. -/
def uploadsFor (k : String) (effs : List Effect) : Nat :=
  effs.countP (isUploadFor k)

/-- Number of pending entries whose `source_key` is `k`. -/
def pendCountK (k : String) (l : List (String × PendingEntry)) : Nat :=
  l.countP (fun kv => kv.2.source_key = k)

/-- Number of registration operations for source key `k` in a trace. -/
def regCountK (k : String) (ops : List Op) : Nat :=
  ops.countP (fun op =>
    match op with
    | .reg _ e => e.source_key = k
    | _ => false)

/-- The `done_request_ids` contribution of one loop item. -/
def itemDone (events : List (String × WEvent))
    (it : String × PendingEntry) : List String :=
  if (alookup events it.1).isSome then [it.1] else []

/-- The object-store effects of one loop item. -/
def itemEffs (events : List (String × WEvent))
    (it : String × PendingEntry) : List Effect :=
  match alookup events it.1 with
  | none => []
  | some ev =>
    if evStatus ev = "OK" then
      [Effect.upload it.2.mapped_local_path it.2.source_key,
       Effect.delete it.2.source_key]
    else []

theorem finStep_effs_eq (events : List (String × WEvent)) (acc : FinAcc)
    (it : String × PendingEntry) :
    (finStep events acc it).effs = acc.effs ++ itemEffs events it := by
  unfold finStep itemEffs
  cases alookup events it.1 with
  | none => simp
  | some ev => by_cases hok : evStatus ev = "OK" <;> simp [hok]

theorem finStep_done_eq2 (events : List (String × WEvent)) (acc : FinAcc)
    (it : String × PendingEntry) :
    (finStep events acc it).done = acc.done ++ itemDone events it := by
  rw [finStep_done_eq]
  unfold itemDone
  split <;> simp

theorem foldl_finStep_effs (events : List (String × WEvent))
    (l : List (String × PendingEntry)) :
    ∀ acc : FinAcc, (l.foldl (finStep events) acc).effs =
      acc.effs ++ l.flatMap (itemEffs events) := by
  induction l with
  | nil => intro acc; simp
  | cons it t ih =>
    intro acc
    rw [List.foldl_cons, ih, finStep_effs_eq, List.flatMap_cons,
      List.append_assoc]

theorem foldl_finStep_done2 (events : List (String × WEvent))
    (l : List (String × PendingEntry)) :
    ∀ acc : FinAcc, (l.foldl (finStep events) acc).done =
      acc.done ++ l.flatMap (itemDone events) := by
  induction l with
  | nil => intro acc; simp
  | cons it t ih =>
    intro acc
    rw [List.foldl_cons, ih, finStep_done_eq2, List.flatMap_cons,
      List.append_assoc]

theorem mem_bind_itemDone (events : List (String × WEvent))
    (l : List (String × PendingEntry)) (r : String)
    (h : r ∈ l.flatMap (itemDone events)) : r ∈ l.map Prod.fst := by
  rcases List.mem_flatMap.mp h with ⟨it, hit, hr⟩
  unfold itemDone at hr
  split at hr
  · rcases List.mem_singleton.mp hr with rfl
    exact List.mem_map_of_mem Prod.fst hit
  · cases hr

theorem foldl_aerase_eq_filter {α : Type} (dl : List String) :
    ∀ l : List (String × α),
      dl.foldl (fun p r => aerase p r) l =
        l.filter (fun kv => kv.1 ∉ dl) := by
  induction dl with
  | nil =>
    intro l
    simp
  | cons d t ih =>
    intro l
    rw [List.foldl_cons, ih]
    unfold aerase
    rw [List.filter_filter]
    apply List.filter_congr
    intro kv _
    by_cases h1 : kv.1 = d <;> by_cases h2 : kv.1 ∈ t <;> simp [h1, h2]

theorem itemEffs_of_none (events : List (String × WEvent))
    (it : String × PendingEntry) (h : alookup events it.1 = none) :
    itemEffs events it = [] := by
  unfold itemEffs
  rw [h]

theorem uploadsFor_itemEffs_le (events : List (String × WEvent))
    (it : String × PendingEntry) (k : String) :
    uploadsFor k (itemEffs events it) ≤
      if it.2.source_key = k then 1 else 0 := by
  unfold itemEffs uploadsFor
  cases alookup events it.1 with
  | none => simp
  | some ev =>
    by_cases hok : evStatus ev = "OK"
    · by_cases hsk : it.2.source_key = k <;>
        simp [hok, hsk, List.countP_cons, isUploadFor]
    · simp [hok]

/-- Core inequality: over one finalizer pass, the uploads for `k` plus
the pending entries for `k` that survive never exceed the pending entries
for `k` that existed before the pass. -/
theorem uploads_pend_bound (events : List (String × WEvent)) (k : String) :
    ∀ l : List (String × PendingEntry), (l.map Prod.fst).Nodup →
      uploadsFor k (l.flatMap (itemEffs events)) +
        pendCountK k (l.filter (fun kv => kv.1 ∉ l.flatMap (itemDone events)))
        ≤ pendCountK k l := by
  intro l
  induction l with
  | nil => simp [uploadsFor, pendCountK]
  | cons it t ih =>
    intro hnodup
    rw [List.map_cons, List.nodup_cons] at hnodup
    have hnd1 : it.1 ∉ t.map Prod.fst := hnodup.1
    have hih := ih hnodup.2
    rw [List.flatMap_cons, List.flatMap_cons]
    unfold uploadsFor pendCountK
    rw [List.countP_append]
    have hft : t.filter
        (fun kv => kv.1 ∉ itemDone events it ++ t.flatMap (itemDone events)) =
        t.filter (fun kv => kv.1 ∉ t.flatMap (itemDone events)) := by
      apply List.filter_congr
      intro kv hkv
      have : kv.1 ∉ itemDone events it := by
        unfold itemDone
        split
        · intro hm
          rcases List.mem_singleton.mp hm with h
          exact hnd1 (h ▸ List.mem_map_of_mem Prod.fst hkv)
        · intro hm
          cases hm
      simp [List.mem_append, this]
    by_cases hm : (alookup events it.1).isSome
    · have hdone : itemDone events it = [it.1] := by
        unfold itemDone
        rw [if_pos hm]
      have hpf : (it :: t).filter
          (fun kv => kv.1 ∉ itemDone events it ++ t.flatMap (itemDone events)) =
          t.filter (fun kv => kv.1 ∉ t.flatMap (itemDone events)) := by
        rw [List.filter_cons, if_neg, hft]
        simp [hdone]
      rw [hpf]
      have h1 := uploadsFor_itemEffs_le events it k
      unfold uploadsFor at h1
      unfold uploadsFor pendCountK at hih
      rw [List.countP_cons]
      by_cases hsk : it.2.source_key = k
      · rw [if_pos hsk] at h1
        have hd : (decide (it.2.source_key = k)) = true := by simp [hsk]
        rw [hd, if_pos rfl]
        omega
      · rw [if_neg hsk] at h1
        have hd : (decide (it.2.source_key = k)) = false := by simp [hsk]
        rw [hd, if_neg Bool.false_ne_true]
        omega
    · have hnone : alookup events it.1 = none := by
        cases hx : alookup events it.1 with
        | none => rfl
        | some ev => rw [hx] at hm; exact absurd rfl hm
      have hdone : itemDone events it = [] := by
        unfold itemDone
        rw [if_neg hm]
      have hpf : (it :: t).filter
          (fun kv => kv.1 ∉ itemDone events it ++ t.flatMap (itemDone events)) =
          it :: t.filter (fun kv => kv.1 ∉ t.flatMap (itemDone events)) := by
        rw [List.filter_cons, if_pos, hft]
        have : it.1 ∉ t.flatMap (itemDone events) := by
          intro hmem
          exact hnd1 (mem_bind_itemDone events t it.1 hmem)
        simp [hdone, this]
      rw [hpf, itemEffs_of_none events it hnone]
      rw [List.countP_cons, List.countP_cons]
      unfold uploadsFor pendCountK at hih
      simp only [List.countP_nil]
      omega

theorem finStep_processed_eq (events : List (String × WEvent))
    (acc : FinAcc) (it : String × PendingEntry) :
    (finStep events acc it).processed = acc.processed ∨
    ((finStep events acc it).processed = acc.processed ++ [it.2.source_key] ∧
      it.2.source_key ∉ acc.processed) := by
  unfold finStep
  cases hx : alookup events it.1 with
  | none => exact Or.inl rfl
  | some ev =>
    by_cases hok : evStatus ev = "OK"
    · by_cases hmem : it.2.source_key ∈ acc.processed
      · exact Or.inl (by simp [hok, hmem])
      · exact Or.inr ⟨by simp [hok, hmem], hmem⟩
    · exact Or.inl (by simp [hok])

theorem finStep_processed_count_le (events : List (String × WEvent))
    (acc : FinAcc) (it : String × PendingEntry) (k : String)
    (h : acc.processed.count k ≤ 1) :
    (finStep events acc it).processed.count k ≤ 1 := by
  rcases finStep_processed_eq events acc it with h1 | ⟨h1, hmem⟩
  · rw [h1]
    exact h
  · rw [h1, List.count_append]
    by_cases hsk : it.2.source_key = k
    · have h0 : acc.processed.count k = 0 :=
        List.count_eq_zero.mpr (by rw [← hsk]; exact hmem)
      rw [h0]
      simp [List.count_cons, hsk]
    · have hks : ¬ k = it.2.source_key := fun he => hsk he.symm
      simpa [List.count_cons, hks] using h

theorem foldl_finStep_processed_count_le (events : List (String × WEvent))
    (l : List (String × PendingEntry)) (k : String) :
    ∀ acc : FinAcc, acc.processed.count k ≤ 1 →
      (l.foldl (finStep events) acc).processed.count k ≤ 1 := by
  induction l with
  | nil => intro acc h; exact h
  | cons it t ih =>
    intro acc h
    rw [List.foldl_cons]
    exact ih _ (finStep_processed_count_le events acc it k h)

/-- One finalizer run: uploads for `k` plus surviving pending entries for
`k` are bounded by the pending entries for `k` before the run. -/
theorem finalize_uploads_pend_bound (s : LState) (k : String)
    (hnodup : (s.pending_ingests.map Prod.fst).Nodup) :
    uploadsFor k (finalize s).2 +
      pendCountK k (finalize s).1.pending_ingests ≤
      pendCountK k s.pending_ingests := by
  by_cases h0 : s.pending_ingests = []
  · unfold finalize
    rw [if_pos h0]
    simp [uploadsFor]
  · unfold finalize finAssemble
    rw [if_neg h0]
    simp only
    rw [foldl_finStep_effs, foldl_finStep_done2, foldl_aerase_eq_filter]
    simp only [List.nil_append]
    exact uploads_pend_bound s.webhook_events k s.pending_ingests hnodup

theorem finalize_processed_count_le (s : LState) (k : String)
    (h : s.processed_keys.count k ≤ 1) :
    (finalize s).1.processed_keys.count k ≤ 1 := by
  by_cases h0 : s.pending_ingests = []
  · unfold finalize
    rw [if_pos h0]
    exact h
  · unfold finalize finAssemble
    rw [if_neg h0]
    exact foldl_finStep_processed_count_le s.webhook_events s.pending_ingests k
      _ h

theorem finalize_pending_nodup (s : LState)
    (h : (s.pending_ingests.map Prod.fst).Nodup) :
    ((finalize s).1.pending_ingests.map Prod.fst).Nodup := by
  by_cases h0 : s.pending_ingests = []
  · unfold finalize
    rw [if_pos h0]
    exact h
  · unfold finalize finAssemble
    rw [if_neg h0]
    simp only
    rw [foldl_finStep_done2, foldl_aerase_eq_filter]
    exact ((List.filter_sublist _).map Prod.fst).nodup h

theorem ainsert_map_fst {κ α : Type} [DecidableEq κ] (l : List (κ × α))
    (k : κ) (v : α) :
    (ainsert l k v).map Prod.fst =
      if k ∈ l.map Prod.fst then l.map Prod.fst
      else l.map Prod.fst ++ [k] := by
  induction l with
  | nil => simp [ainsert]
  | cons kv t ih =>
    obtain ⟨k0, v0⟩ := kv
    by_cases h : k0 = k
    · subst h
      simp [ainsert]
    · have hks : ¬ k = k0 := fun he => h he.symm
      simp only [ainsert, if_neg h, List.map_cons, ih]
      by_cases ht : k ∈ t.map Prod.fst <;>
        simp [ht, List.mem_cons, hks]

theorem ainsert_keys_nodup {κ α : Type} [DecidableEq κ] (l : List (κ × α))
    (k : κ) (v : α) (h : (l.map Prod.fst).Nodup) :
    ((ainsert l k v).map Prod.fst).Nodup := by
  rw [ainsert_map_fst]
  split
  · exact h
  · rename_i hmem
    simp [List.nodup_append, h, hmem]

theorem countP_ainsert_le {κ α : Type} [DecidableEq κ] (l : List (κ × α))
    (k : κ) (v : α) (q : κ × α → Bool) :
    (ainsert l k v).countP q ≤ l.countP q + (if q (k, v) then 1 else 0) := by
  induction l with
  | nil => simp [ainsert, List.countP_cons]
  | cons kv t ih =>
    obtain ⟨k0, v0⟩ := kv
    by_cases h : k0 = k
    · simp only [ainsert, if_pos h, List.countP_cons]
      omega
    · simp only [ainsert, if_neg h, List.countP_cons]
      omega

/-- Trace invariant: along any operation sequence the uploads for `k`
plus the live pending entries for `k` are bounded by the initial pending
entries for `k` plus the registrations for `k`; the processed-keys count
for `k` never exceeds one; pending request ids stay duplicate-free. -/
theorem run_bound (k : String) : ∀ (ops : List Op) (s : LState),
    (s.pending_ingests.map Prod.fst).Nodup → s.processed_keys.count k ≤ 1 →
    (uploadsFor k (run s ops).2 + pendCountK k (run s ops).1.pending_ingests
       ≤ pendCountK k s.pending_ingests + regCountK k ops) ∧
    (run s ops).1.processed_keys.count k ≤ 1 ∧
    ((run s ops).1.pending_ingests.map Prod.fst).Nodup := by
  intro ops
  induction ops with
  | nil =>
    intro s h1 h2
    refine ⟨?_, h2, h1⟩
    simp [run, uploadsFor, regCountK]
  | cons op t ih =>
    intro s h1 h2
    cases op with
    | record p now =>
      simp only [run, applyOp]
      have hw1 : (webhook_tx (p.getD Payload.empty) now s).pending_ingests =
          s.pending_ingests := rfl
      have hw2 : (webhook_tx (p.getD Payload.empty) now s).processed_keys =
          s.processed_keys := rfl
      rcases ih (webhook_tx (p.getD Payload.empty) now s)
          (by rw [hw1]; exact h1) (by rw [hw2]; exact h2) with ⟨ha, hb, hc⟩
      refine ⟨?_, hb, hc⟩
      have hreg : regCountK k (Op.record p now :: t) = regCountK k t := by
        simp [regCountK, List.countP_cons]
      rw [hreg, ← hw1]
      simpa using ha
    | fin =>
      simp only [run, applyOp]
      rcases ih (finalize s).1 (finalize_pending_nodup s h1)
          (finalize_processed_count_le s k h2) with ⟨ha, hb, hc⟩
      refine ⟨?_, hb, hc⟩
      have hfin := finalize_uploads_pend_bound s k h1
      have hreg : regCountK k (Op.fin :: t) = regCountK k t := by
        simp [regCountK, List.countP_cons]
      rw [hreg]
      unfold uploadsFor at ha hfin ⊢
      rw [List.countP_append]
      omega
    | reg rid e =>
      simp only [run, applyOp]
      have hp1 : (register_pending_ingest rid e s).pending_ingests =
          ainsert s.pending_ingests rid e := rfl
      have hp2 : (register_pending_ingest rid e s).processed_keys =
          s.processed_keys := rfl
      rcases ih (register_pending_ingest rid e s)
          (by rw [hp1]; exact ainsert_keys_nodup _ _ _ h1)
          (by rw [hp2]; exact h2) with ⟨ha, hb, hc⟩
      refine ⟨?_, hb, hc⟩
      rw [hp1] at ha
      have hins := countP_ainsert_le s.pending_ingests rid e
        (fun kv => kv.2.source_key = k)
      have hreg : regCountK k (Op.reg rid e :: t) =
          regCountK k t + (if e.source_key = k then 1 else 0) := by
        unfold regCountK
        rw [List.countP_cons]
        by_cases he : e.source_key = k <;> simp [he]
      rw [hreg]
      have hind : (if (decide (e.source_key = k)) = true then 1 else 0) =
          (if e.source_key = k then 1 else 0) := by
        by_cases he : e.source_key = k <;> simp [he]
      rw [hind] at hins
      unfold pendCountK at ha ⊢
      simp only [List.nil_append]
      omega

theorem run_nil (s : LState) : run s [] = (s, []) := rfl

theorem run_cons (s : LState) (op : Op) (t : List Op) :
    run s (op :: t) =
      ((run (applyOp s op).1 t).1,
       (applyOp s op).2 ++ (run (applyOp s op).1 t).2) := rfl

theorem run_append_eq (l1 : List Op) :
    ∀ (l2 : List Op) (s s1 s2 : LState) (e1 e2 : List Effect),
      run s l1 = (s1, e1) → run s1 l2 = (s2, e2) →
      run s (l1 ++ l2) = (s2, e1 ++ e2) := by
  induction l1 with
  | nil =>
    intro l2 s s1 s2 e1 e2 h1 h2
    have hs : s = s1 ∧ ([] : List Effect) = e1 := by
      have := h1
      unfold run at this
      exact ⟨congrArg Prod.fst this, congrArg Prod.snd this⟩
    rcases hs with ⟨rfl, rfl⟩
    simpa using h2
  | cons op t ih =>
    intro l2 s s1 s2 e1 e2 h1 h2
    simp only [run] at h1
    rcases hrt : run (applyOp s op).1 t with ⟨st, et⟩
    rw [hrt] at h1
    have hst : st = s1 := congrArg Prod.fst h1
    have het : (applyOp s op).2 ++ et = e1 := congrArg Prod.snd h1
    subst hst
    rw [List.cons_append]
    simp only [run]
    rw [ih l2 _ st s2 et e2 hrt h2]
    rw [← het, List.append_assoc]

theorem ainsert_idem {κ α : Type} [DecidableEq κ] (l : List (κ × α))
    (k : κ) (v : α) : ainsert (ainsert l k v) k v = ainsert l k v := by
  induction l with
  | nil => simp [ainsert]
  | cons kv t ih =>
    obtain ⟨k0, v0⟩ := kv
    by_cases h : k0 = k
    · simp [ainsert, h]
    · simp [ainsert, h, ih]

theorem webhook_tx_idem (p : Payload) (now : String) (s : LState) :
    webhook_tx p now (webhook_tx p now s) = webhook_tx p now s := by
  unfold webhook_tx
  simp [ainsert_idem]

/-- Any positive number of identical callback deliveries collapses to one
upsert: duplicates are idempotent on the ledger. -/
theorem run_replicate_record (p : Option Payload) (now : String) :
    ∀ (n : Nat) (s : LState),
      run s (List.replicate (n + 1) (Op.record p now)) =
        (webhook_tx (p.getD Payload.empty) now s, []) := by
  intro n
  induction n with
  | zero =>
    intro s
    simp [run, applyOp]
  | succ n ih =>
    intro s
    rw [List.replicate_succ, run_cons]
    simp only [applyOp]
    rw [ih]
    simp [webhook_tx_idem]

/-- Callback deliveries never change `pending_ingests` or
`processed_keys` and cause no object-store effect. -/
theorem run_records_frame (p : Option Payload) (now : String) :
    ∀ (m : Nat) (s : LState),
      (run s (List.replicate m (Op.record p now))).1.pending_ingests =
          s.pending_ingests ∧
      (run s (List.replicate m (Op.record p now))).1.processed_keys =
          s.processed_keys ∧
      (run s (List.replicate m (Op.record p now))).2 = [] := by
  intro m
  induction m with
  | zero => intro s; exact ⟨rfl, rfl, rfl⟩
  | succ m ih =>
    intro s
    rw [List.replicate_succ, run_cons]
    simp only [applyOp]
    rcases ih (webhook_tx (p.getD Payload.empty) now s) with ⟨ha, hb, hc⟩
    exact ⟨ha, hb, by simp [hc]⟩

theorem finalize_of_no_pending (s : LState) (h : s.pending_ingests = []) :
    finalize s = (s, []) := by
  unfold finalize
  rw [if_pos h]

theorem run_fin_of_no_pending (s : LState) (h : s.pending_ingests = []) :
    run s [Op.fin] = (s, []) := by
  rw [run_cons]
  simp only [applyOp]
  rw [finalize_of_no_pending s h]
  rfl

/-- The duplicate-callback scenario: a single pending entry for
`incoming/c.csv`, then `n + 1` identical `OK` callbacks, a finalizer run,
`m` more duplicate callbacks for the already-finalized id, and another
finalizer run. -/
def wP4 : PendingEntry := ⟨"incoming/c.csv", "tmp/c_mapped.csv", "t0", "resp"⟩

/-- Initial ledger of the scenario: `r1` pending, nothing processed. -/
def wS4 : LState := ⟨[], [], [("r1", wP4)], []⟩

/-- The `OK` callback payload for correlation id `r1`. -/
def wPl4 : Payload := ⟨some "r1", some "OK", some "doc7", none⟩

/-- The operation sequence of the duplicate-callback scenario. -/
def scenarioOps (n m : Nat) : List Op :=
  (List.replicate (n + 1) (Op.record (some wPl4) "t1") ++ [Op.fin]) ++
    (List.replicate m (Op.record (some wPl4) "t2") ++ [Op.fin])

/-- Ledger after the first callback batch. -/
def wS41 : LState :=
  ⟨[], [], [("r1", wP4)], [("r1", ⟨"t1", some "r1", some "OK", some "doc7", none⟩)]⟩

/-- Ledger after the first finalizer run commits `r1`. -/
def wS42 : LState :=
  ⟨["incoming/c.csv"],
   [("incoming/c.csv",
     ⟨"r1", "OK", some "doc7", none, "resp",
      ⟨"t1", some "r1", some "OK", some "doc7", none⟩⟩)],
   [], []⟩

/-- Effects of the first finalizer run: one upload, one delete. -/
def wE42 : List Effect :=
  [Effect.upload "tmp/c_mapped.csv" "incoming/c.csv",
   Effect.delete "incoming/c.csv"]

theorem scenario_exactly_once (n m : Nat) :
    uploadsFor "incoming/c.csv" (run wS4 (scenarioOps n m)).2 = 1 ∧
    (run wS4 (scenarioOps n m)).1.processed_keys.count "incoming/c.csv"
      = 1 := by
  have hA : run wS4 (List.replicate (n + 1) (Op.record (some wPl4) "t1")) =
      (wS41, []) := by
    rw [run_replicate_record]
    decide
  have hfin1 : run wS41 [Op.fin] = (wS42, wE42) := by decide
  have hAf : run wS4
      (List.replicate (n + 1) (Op.record (some wPl4) "t1") ++ [Op.fin]) =
      (wS42, [] ++ wE42) :=
    run_append_eq _ _ _ _ _ _ _ hA hfin1
  rcases hB : run wS42 (List.replicate m (Op.record (some wPl4) "t2")) with
    ⟨sB, eB⟩
  rcases run_records_frame (some wPl4) "t2" m wS42 with ⟨hB1, hB2, hB3⟩
  rw [hB] at hB1 hB2 hB3
  have hBp : sB.pending_ingests = wS42.pending_ingests := hB1
  have hBk : sB.processed_keys = wS42.processed_keys := hB2
  have hBe : eB = [] := hB3
  have hBpend : sB.pending_ingests = [] := by
    rw [hBp]
    decide
  have hBf : run wS42
      (List.replicate m (Op.record (some wPl4) "t2") ++ [Op.fin]) =
      (sB, eB ++ []) :=
    run_append_eq _ _ _ _ _ _ _ hB (run_fin_of_no_pending sB hBpend)
  have hall : run wS4 (scenarioOps n m) = (sB, ([] ++ wE42) ++ (eB ++ [])) :=
    run_append_eq _ _ _ _ _ _ _ hAf hBf
  rw [hall]
  constructor
  · show uploadsFor "incoming/c.csv" (([] ++ wE42) ++ (eB ++ [])) = 1
    rw [hBe]
    decide
  · show sB.processed_keys.count "incoming/c.csv" = 1
    rw [hBk]
    decide

/-- C4: no double commit. Along any operation trace from a well-formed
ledger in which pending entries for a source key `k` plus registrations
for `k` never exceed one, the artifact of `k` is uploaded at most once
and `k` appears in `processed_keys` at most once; and in the concrete
duplicate-callback scenario — any number of duplicate `OK` events for the
same correlation id, finalized twice — the artifact is uploaded exactly
once and the key appears in `processed_keys` exactly once. -/
theorem no_double_commit (s : LState) (k : String) (ops : List Op)
    (hnodup : (s.pending_ingests.map Prod.fst).Nodup)
    (hproc : s.processed_keys.count k ≤ 1)
    (hcap : pendCountK k s.pending_ingests + regCountK k ops ≤ 1) :
    (uploadsFor k (run s ops).2 ≤ 1 ∧
      (run s ops).1.processed_keys.count k ≤ 1) ∧
    ∀ n m : Nat,
      uploadsFor "incoming/c.csv" (run wS4 (scenarioOps n m)).2 = 1 ∧
      (run wS4 (scenarioOps n m)).1.processed_keys.count "incoming/c.csv"
        = 1 := by
  refine ⟨?_, scenario_exactly_once⟩
  rcases run_bound k ops s hnodup hproc with ⟨ha, hb, _⟩
  exact ⟨by omega, hb⟩

theorem no_double_commit_witness :
    ((uploadsFor "incoming/c.csv" (run wS4 [Op.fin]).2 ≤ 1 ∧
       (run wS4 [Op.fin]).1.processed_keys.count "incoming/c.csv" ≤ 1) ∧
     ∀ n m : Nat,
       uploadsFor "incoming/c.csv" (run wS4 (scenarioOps n m)).2 = 1 ∧
       (run wS4 (scenarioOps n m)).1.processed_keys.count "incoming/c.csv"
         = 1) :=
  no_double_commit wS4 "incoming/c.csv" [Op.fin] (by decide) (by decide)
    (by decide)

/-! ## Poll loop (`main` in `processor.py`) -/

/-- External collaborators of one poll cycle. `fx` is
`fetch_fx_eur_usd` (`none`: both the XML-RPC and the REST source failed,
the exception aborts the cycle). `listing` is the object-store listing
under the incoming prefix, already sorted oldest-to-newest. `submit`
covers the per-key `try` block — download, `write_mapped_csv`,
`send_to_xml_service` — yielding `some request_id` on an acknowledgment
carrying `_request_id` and `none` when any step raises (or the
acknowledgment lacks `_request_id`), in which case the key is skipped.
`entry` is the pending entry registered for an acknowledged key. -/
structure Env where
  fx : Option ℤ
  listing : List String
  submit : String → Option String
  entry : String → PendingEntry

/-- `list_new_csv_objects`: `.csv` keys under the prefix that are not in
`processed_keys`. -/
def list_new_csv_objects (listing : List String)
    (processed_keys : List String) : List String :=
  (listing.filter (fun k => k.endsWith ".csv")).filter
    (fun k => k ∉ processed_keys)

/-- One iteration of the `while True` body: (0) finalize pending ingests;
(1) read the state and, if any pending ingest remains, sleep without
taking new files; (2) otherwise resolve the FX rate, list new CSVs and,
per key, map + submit + register, skipping keys whose submission fails.
Returns the resulting ledger state, the keys for which a map/submit was
attempted, and the request ids registered. -/
def poll_cycle (env : Env) (s0 : LState) : LState × List String × List String :=
  let s1 := (finalize s0).1
  if s1.pending_ingests ≠ [] then (s1, [], [])
  else
    match env.fx with
    | none => (s1, [], [])
    | some _ =>
      (list_new_csv_objects env.listing s1.processed_keys).foldl
        (fun acc k =>
          match env.submit k with
          | none => (acc.1, acc.2.1 ++ [k], acc.2.2)
          | some rid =>
            (register_pending_ingest rid (env.entry k) acc.1,
             acc.2.1 ++ [k], acc.2.2 ++ [rid]))
        (s1, [], [])

/-- C3: admission control — when pending ingests remain after the
finalization step, the cycle maps/submits no source object and registers
no new pending entry: it ends in exactly the post-finalization state. -/
theorem poll_cycle_admission_control (env : Env) (s0 : LState)
    (h : (finalize s0).1.pending_ingests ≠ []) :
    poll_cycle env s0 = ((finalize s0).1, [], []) := by
  unfold poll_cycle
  simp [h]

/-- A ledger with one pending entry and no event for it: the finalizer
leaves it pending, so the next cycle must admit nothing. -/
def wS3 : LState := ⟨[], [], [("r9", wP5)], []⟩

/-- An environment with work on offer, to show the cycle refuses it. -/
def wEnv3 : Env :=
  ⟨some 1, ["incoming/b.csv"], fun _ => some "rX", fun _ => wP5⟩

theorem poll_cycle_admission_control_witness :
    poll_cycle wEnv3 wS3 = ((finalize wS3).1, [], []) :=
  poll_cycle_admission_control wEnv3 wS3 (by decide)

/-- Concrete orphan: a `"ghost"` event with no pending entry survives a
registration of another id and two finalizer runs. -/
def wS10 : LState :=
  ⟨[], [], [], [("ghost", ⟨"t0", some "ghost", some "OK", none, none⟩)]⟩

theorem orphan_events_persist_witness :
    ((alookup (run wS10 [Op.fin, Op.reg "r2" wP5, Op.fin]).1.webhook_events
        "ghost").isSome ∧
      alookup (run wS10 [Op.fin, Op.reg "r2" wP5, Op.fin]).1.pending_ingests
        "ghost" = none) ∧
    ∀ ev, alookup wS10.webhook_events "ghost" = some ev →
      alookup (finalize wS10).1.webhook_events "ghost" = some ev :=
  orphan_events_persist wS10 "ghost" [Op.fin, Op.reg "r2" wP5, Op.fin]
    (by decide) (by decide) (by decide)

theorem finalize_error_frame_witness :
    evStatus wEv5 ≠ "OK" ∧
      finalize wS5 =
        ({ processed_keys := wS5.processed_keys
           ingest_results := ainsert wS5.ingest_results wP5.source_key
             (errOutcome "r1" wP5 wEv5)
           pending_ingests := aerase wS5.pending_ingests "r1"
           webhook_events := aerase wS5.webhook_events "r1" }, []) :=
  ⟨by decide,
   finalize_error_frame wS5 "r1" wP5 wEv5 (by decide) (by decide) (by decide)
     (by decide) (by decide)⟩

/-! ## Weather enrichment (`weather_client.py` and the per-row block in
`write_mapped_csv`)

Coordinates are an abstract type `C`; Python's `round(·, ROUND_DECIMALS)`
on floats is modelled by a quantization function `q : C → C`. The cache
key `f"{lat_n:.Df}:{lon_n:.Df}"` is injective on quantized pairs and is
modelled as the pair itself. Wall-clock times are integers. The provider
call `requests.get` is an oracle: `some cur` is a `200` response with the
parsed `current` fields, `none` is any raised exception. -/

/-- The fields read from `j.get("current") or {}`. -/
structure Cur where
  temperature_2m : Option ℤ
  wind_speed_10m : Option ℤ
  precipitation : Option ℤ
  weather_code : Option ℤ
  time : Option String
  deriving Repr, DecidableEq

/-- The `data` dict cached and returned by `fetch_weather`. -/
structure WPayload where
  weather_source : String
  weather_temperature_c : Option ℤ
  weather_wind_kmh : Option ℤ
  weather_precip_mm : Option ℤ
  weather_code : Option ℤ
  weather_time_utc : Option String
  deriving Repr, DecidableEq

/-- Build the `data` dict from the parsed response. -/
def mkWData (cur : Cur) : WPayload :=
  ⟨"open-meteo", cur.temperature_2m, cur.wind_speed_10m, cur.precipitation,
   cur.weather_code, cur.time⟩

/-- The module-level configuration of `weather_client.py`. -/
structure WCfg where
  enabled : Bool
  cache_ttl : ℤ
  fail_streak_max : Nat
  fail_cooldown : ℤ
  deriving Repr, DecidableEq

/-- `WEATHER_FAIL_STREAK_MAX` default. -/
def FAIL_STREAK_MAX_DEFAULT : Nat := 5

/-- The module-level mutable state of `weather_client.py`:
`_cache` (key → `(expires_at, data)`), `_fail_streak`,
`_cooldown_until`, `_last_request_ts`. -/
structure WState (C : Type) where
  cache : List ((C × C) × (ℤ × WPayload))
  fail_streak : Nat
  cooldown_until : ℤ
  last_request_ts : ℤ
  deriving Repr, DecidableEq

/-- `_cache_get`: returns the unexpired payload for `key`, popping an
expired entry (`time.time() > expires_at`). -/
def cache_get {C : Type} [DecidableEq C] (now : ℤ)
    (cache : List ((C × C) × (ℤ × WPayload))) (key : C × C) :
    Option WPayload × List ((C × C) × (ℤ × WPayload)) :=
  match alookup cache key with
  | none => (none, cache)
  | some (exp, d) => if now > exp then (none, aerase cache key) else (some d, cache)

/-- `fetch_weather(lat, lon)`: enabled check, circuit-breaker cooldown
check, quantization, cache lookup, then (rate-limit sleep and) the
provider call, updating cache/streak/cooldown. The returned `Bool` says
whether the provider was actually called. `_rate_limit_sleep` is modelled
by stamping `last_request_ts := now` on the call path. -/
def fetch_weather {C : Type} [DecidableEq C] (cfg : WCfg) (q : C → C)
    (now : ℤ) (lat lon : C) (presp : Option Cur) (s : WState C) :
    Option WPayload × WState C × Bool :=
  if ¬ cfg.enabled then (none, s, false)
  else if now < s.cooldown_until then (none, s, false)
  else
    match cache_get now s.cache (q lat, q lon) with
    | (some d, c') => (some d, { s with cache := c' }, false)
    | (none, c') =>
      match presp with
      | some cur =>
        (some (mkWData cur),
         { s with
             cache := ainsert c' (q lat, q lon) (now + cfg.cache_ttl, mkWData cur)
             fail_streak := 0
             last_request_ts := now }, true)
      | none =>
        if s.fail_streak + 1 ≥ cfg.fail_streak_max then
          (none,
           { s with
               cache := c'
               fail_streak := 0
               cooldown_until := now + cfg.fail_cooldown
               last_request_ts := now }, true)
        else
          (none,
           { s with
               cache := c'
               fail_streak := s.fail_streak + 1
               last_request_ts := now }, true)

/-- The per-pass state of the weather block in `write_mapped_csv`:
the per-file `weather_cache`, the `weather_calls` budget counter, the
client module state, and the log of actual provider invocations
`(key, success?)`. -/
structure PassState (C : Type) where
  wcache : List ((C × C) × WPayload)
  weather_calls : Nat
  ws : WState C
  plog : List ((C × C) × Bool)
  deriving Repr, DecidableEq

/-- The weather-enrichment block for one CSV row (`write_mapped_csv`):
`coord` is the parsed `(lat, lon)` (`none` when absent or unparsable, in
which case the `except` leaves `weather = None`); per-file cache first,
then the budget check, then `fetch_weather`. `prov` supplies the provider
response for the i-th actual provider invocation of the pass. -/
def rowWeather {C : Type} [DecidableEq C] (cfg : WCfg) (q : C → C)
    (maxCalls : Nat) (now : ℤ) (prov : Nat → Option Cur)
    (st : PassState C) (coord : Option (C × C)) :
    Option WPayload × PassState C :=
  match coord with
  | none => (none, st)
  | some (lat, lon) =>
    let wkey := (q lat, q lon)
    match alookup st.wcache wkey with
    | some w => (some w, st)
    | none =>
      if st.weather_calls < maxCalls then
        let presp := prov st.plog.length
        match fetch_weather cfg q now (q lat) (q lon) presp st.ws with
        | (w, ws', called) =>
          let st1 : PassState C :=
            { st with
                weather_calls := st.weather_calls + 1
                ws := ws'
                plog := st.plog ++
                  (if called then [(wkey, presp.isSome)] else []) }
          match w with
          | some data =>
            (some data, { st1 with wcache := ainsert st1.wcache wkey data })
          | none => (none, st1)
      else (none, st)

/-- The whole mapping pass, row by row; each row carries the wall-clock
time at which it is processed (the code calls `time.time()` per row). -/
def mapPassW {C : Type} [DecidableEq C] (cfg : WCfg) (q : C → C)
    (maxCalls : Nat) (prov : Nat → Option Cur)
    (rows : List (ℤ × Option (C × C))) (st : PassState C) : PassState C :=
  rows.foldl (fun st r => (rowWeather cfg q maxCalls r.1 prov st r.2).2) st

/-- Provider invocations for a key in the pass log. -/
def callsFor {C : Type} [DecidableEq C] (key : C × C)
    (plog : List ((C × C) × Bool)) : Nat :=
  plog.countP (fun e => e.1 = key)

/-- Successful provider invocations for a key in the pass log. -/
def succCallsFor {C : Type} [DecidableEq C] (key : C × C)
    (plog : List ((C × C) × Bool)) : Nat :=
  plog.countP (fun e => e.1 = key ∧ e.2)

/-! ## C7: cache hit behaviour and guard order -/

/-- Configuration with weather enabled and the default limits. -/
def wCfg7 : WCfg := ⟨true, 86400, FAIL_STREAK_MAX_DEFAULT, 60⟩

/-- A cached payload for the key `(1, 1)`. -/
def wPay7 : WPayload := ⟨"open-meteo", some 20, none, none, none, none⟩

/-- Client state: the cache holds an unexpired entry for `(1, 1)`
(expires at 100), but a breaker cooldown is active until 10. -/
def wWs7 : WState ℤ := ⟨[(((1 : ℤ), (1 : ℤ)), (100, wPay7))], 0, 10, 0⟩

/-- Counterexample to C7 as stated: at time 5 the key `(1, 1)` has an
unexpired cache entry, yet the lookup returns `none` — not the cached
payload — because the circuit-breaker cooldown is evaluated before the
cache (the claimed guard order cache → budget → breaker does not match
`fetch_weather`, which checks the breaker first). -/
theorem fetch_weather_cooldown_shadows_cache :
    alookup wWs7.cache (id (1 : ℤ), id (1 : ℤ)) = some (100, wPay7) ∧
    ¬ ((5 : ℤ) > 100) ∧
    fetch_weather wCfg7 id 5 1 1 none wWs7 = (none, wWs7, false) := by
  decide

/-- C7 (amended): the per-file mapper cache is checked first — a hit
returns the cached payload with no `fetch_weather` call and no state
change; at the client level the order is enabled → breaker → TTL cache →
rate limit → provider, so an unexpired cached entry is returned with no
provider call provided weather is enabled and no breaker cooldown is
active. -/
theorem enrichment_cache_hit {C : Type} [DecidableEq C] (cfg : WCfg)
    (q : C → C) (now : ℤ) (lat lon : C) (presp : Option Cur) (s : WState C)
    (exp : ℤ) (d : WPayload)
    (hen : cfg.enabled = true)
    (hcd : ¬ now < s.cooldown_until)
    (hl : alookup s.cache (q lat, q lon) = some (exp, d))
    (hexp : ¬ now > exp) :
    fetch_weather cfg q now lat lon presp s = (some d, s, false) ∧
    ∀ (maxCalls : Nat) (prov : Nat → Option Cur) (st : PassState C)
      (w : WPayload),
      alookup st.wcache (q lat, q lon) = some w →
      rowWeather cfg q maxCalls now prov st (some (lat, lon)) =
        (some w, st) := by
  constructor
  · have hcg : cache_get now s.cache (q lat, q lon) = (some d, s.cache) := by
      unfold cache_get
      rw [hl]
      exact if_neg hexp
    unfold fetch_weather
    rw [if_neg (by simp [hen]), if_neg hcd]
    rw [hcg]
  · intro maxCalls prov st w hw
    unfold rowWeather
    simp only
    rw [hw]

/-- Client state with no active cooldown and the same unexpired entry. -/
def wWs7b : WState ℤ := ⟨[(((1 : ℤ), (1 : ℤ)), (100, wPay7))], 0, 10, 0⟩

/-- Mapper pass state whose per-file cache holds `(1, 1)`. -/
def wSt7 : PassState ℤ := ⟨[(((1 : ℤ), (1 : ℤ)), wPay7)], 0, wWs7b, []⟩

/-! ## C8: circuit breaker -/

/-- `n` consecutive `fetch_weather` calls against a failing provider. -/
def iterFailW {C : Type} [DecidableEq C] (cfg : WCfg) (q : C → C)
    (now : ℤ) (lat lon : C) : Nat → WState C → WState C
  | 0, s => s
  | n + 1, s =>
    (fetch_weather cfg q now lat lon none
      (iterFailW cfg q now lat lon n s)).2.1

/-- During an active cooldown every call returns `none` without invoking
the provider and without touching the state. -/
theorem fetch_weather_cooldown (cfg : WCfg) {C : Type} [DecidableEq C]
    (q : C → C) (now : ℤ) (lat lon : C) (presp : Option Cur) (s : WState C)
    (h : now < s.cooldown_until) :
    fetch_weather cfg q now lat lon presp s = (none, s, false) := by
  unfold fetch_weather
  by_cases hen : cfg.enabled
  · rw [if_neg (by simp [hen]), if_pos h]
  · rw [if_pos (by simp [hen])]

/-- A failing call below the streak limit just increments the streak. -/
theorem fetch_weather_fail_step {C : Type} [DecidableEq C] (cfg : WCfg)
    (q : C → C) (now : ℤ) (lat lon : C) (s : WState C)
    (hen : cfg.enabled = true) (hcd : ¬ now < s.cooldown_until)
    (hc : alookup s.cache (q lat, q lon) = none)
    (hlt : s.fail_streak + 1 < cfg.fail_streak_max) :
    fetch_weather cfg q now lat lon none s =
      (none,
       { s with fail_streak := s.fail_streak + 1, last_request_ts := now },
       true) := by
  have hcg : cache_get now s.cache (q lat, q lon) = (none, s.cache) := by
    unfold cache_get
    rw [hc]
  unfold fetch_weather
  rw [if_neg (by simp [hen]), if_neg hcd]
  simp only
  rw [hcg]
  simp only
  rw [if_neg (by omega)]

/-- A failing call that reaches the streak limit opens the circuit for
`fail_cooldown` seconds and resets the streak. -/
theorem fetch_weather_fail_open {C : Type} [DecidableEq C] (cfg : WCfg)
    (q : C → C) (now : ℤ) (lat lon : C) (s : WState C)
    (hen : cfg.enabled = true) (hcd : ¬ now < s.cooldown_until)
    (hc : alookup s.cache (q lat, q lon) = none)
    (hge : s.fail_streak + 1 ≥ cfg.fail_streak_max) :
    fetch_weather cfg q now lat lon none s =
      (none,
       { s with
           fail_streak := 0
           cooldown_until := now + cfg.fail_cooldown
           last_request_ts := now },
       true) := by
  have hcg : cache_get now s.cache (q lat, q lon) = (none, s.cache) := by
    unfold cache_get
    rw [hc]
  unfold fetch_weather
  rw [if_neg (by simp [hen]), if_neg hcd]
  simp only
  rw [hcg]
  simp only
  rw [if_pos hge]

/-- On a cache miss (outside any cooldown, weather enabled) the provider
is invoked. -/
theorem fetch_weather_calls_provider {C : Type} [DecidableEq C]
    (cfg : WCfg) (q : C → C) (now : ℤ) (lat lon : C) (presp : Option Cur)
    (s : WState C)
    (hen : cfg.enabled = true) (hcd : ¬ now < s.cooldown_until)
    (hc : alookup s.cache (q lat, q lon) = none) :
    (fetch_weather cfg q now lat lon presp s).2.2 = true := by
  have hcg : cache_get now s.cache (q lat, q lon) = (none, s.cache) := by
    unfold cache_get
    rw [hc]
  unfold fetch_weather
  rw [if_neg (by simp [hen]), if_neg hcd]
  rw [hcg]
  cases presp with
  | none =>
    by_cases hge : s.fail_streak + 1 ≥ cfg.fail_streak_max
    · simp [hge]
    · simp [hge]
  | some cur => simp

/-- Invariant of the failing-call iteration below the limit: the cache
stays empty, the streak counts the failures, the cooldown is unchanged. -/
theorem iterFailW_inv {C : Type} [DecidableEq C] (cfg : WCfg) (q : C → C)
    (now : ℤ) (lat lon : C) (s : WState C)
    (hen : cfg.enabled = true) (hc : s.cache = [])
    (hs : s.fail_streak = 0) (hcd : ¬ now < s.cooldown_until) :
    ∀ k : Nat, k < cfg.fail_streak_max →
      (iterFailW cfg q now lat lon k s).cache = [] ∧
      (iterFailW cfg q now lat lon k s).fail_streak = k ∧
      (iterFailW cfg q now lat lon k s).cooldown_until =
        s.cooldown_until := by
  intro k
  induction k with
  | zero => intro _; exact ⟨hc, hs, rfl⟩
  | succ k ih =>
    intro hk
    rcases ih (by omega) with ⟨h1, h2, h3⟩
    have hstep := fetch_weather_fail_step cfg q now lat lon
      (iterFailW cfg q now lat lon k s) hen (by rw [h3]; exact hcd)
      (by rw [h1]; rfl) (by omega)
    unfold iterFailW
    rw [hstep]
    exact ⟨h1, by rw [h2], h3⟩

/-- C8: the circuit breaker. (a) during an active cooldown every lookup
returns `none` without invoking the provider and without changing any
state; (b) the failure that reaches the configured streak maximum
(default 5) opens the circuit for the configured cooldown and resets the
streak to zero; (c) once the cooldown has elapsed, a cache-missing lookup
invokes the provider again; (d) from a clean state, exactly
`fail_streak_max` consecutive provider failures leave the circuit open
until `now + fail_cooldown` with the streak reset. -/
theorem circuit_breaker {C : Type} [DecidableEq C] (cfg : WCfg)
    (q : C → C) (lat lon : C) :
    (∀ (now : ℤ) (presp : Option Cur) (s : WState C),
      now < s.cooldown_until →
      fetch_weather cfg q now lat lon presp s = (none, s, false)) ∧
    (∀ (now : ℤ) (s : WState C),
      cfg.enabled = true → ¬ now < s.cooldown_until →
      alookup s.cache (q lat, q lon) = none →
      s.fail_streak + 1 ≥ cfg.fail_streak_max →
      fetch_weather cfg q now lat lon none s =
        (none,
         { s with
             fail_streak := 0
             cooldown_until := now + cfg.fail_cooldown
             last_request_ts := now },
         true)) ∧
    (∀ (now : ℤ) (presp : Option Cur) (s : WState C),
      cfg.enabled = true → ¬ now < s.cooldown_until →
      alookup s.cache (q lat, q lon) = none →
      (fetch_weather cfg q now lat lon presp s).2.2 = true) ∧
    (∀ (now : ℤ) (s : WState C),
      cfg.enabled = true → s.cache = [] → s.fail_streak = 0 →
      ¬ now < s.cooldown_until → 1 ≤ cfg.fail_streak_max →
      (iterFailW cfg q now lat lon cfg.fail_streak_max s).cooldown_until =
          now + cfg.fail_cooldown ∧
      (iterFailW cfg q now lat lon cfg.fail_streak_max s).fail_streak
          = 0) := by
  refine ⟨fun now presp s h => fetch_weather_cooldown cfg q now lat lon presp s h,
    fun now s hen hcd hc hge =>
      fetch_weather_fail_open cfg q now lat lon s hen hcd hc hge,
    fun now presp s hen hcd hc =>
      fetch_weather_calls_provider cfg q now lat lon presp s hen hcd hc,
    ?_⟩
  intro now s hen hc hs hcd hmax
  rcases Nat.exists_eq_add_of_le hmax with ⟨m, hm⟩
  have hmax' : cfg.fail_streak_max = m + 1 := by omega
  rcases iterFailW_inv cfg q now lat lon s hen hc hs hcd m (by omega)
    with ⟨h1, h2, h3⟩
  have hstep := fetch_weather_fail_open cfg q now lat lon
    (iterFailW cfg q now lat lon m s) hen (by rw [h3]; exact hcd)
    (by rw [h1]; rfl) (by omega)
  rw [hmax']
  unfold iterFailW
  rw [hstep]
  exact ⟨rfl, rfl⟩

/-- A clean client state: empty cache, zero streak, no cooldown. -/
def wWs8 : WState ℤ := ⟨[], 0, 0, 0⟩

/-- A client state one failure away from the streak limit. -/
def wWs8b : WState ℤ := ⟨[], 4, 0, 0⟩

theorem circuit_breaker_witness :
    fetch_weather wCfg7 id 5 1 1 none wWs7 = (none, wWs7, false) ∧
    fetch_weather wCfg7 id 7 1 1 none wWs8b =
      (none,
       { wWs8b with
           fail_streak := 0
           cooldown_until := (7 : ℤ) + wCfg7.fail_cooldown
           last_request_ts := 7 },
       true) ∧
    (fetch_weather wCfg7 id 7 1 1 none wWs8).2.2 = true ∧
    ((iterFailW wCfg7 id 7 1 1 wCfg7.fail_streak_max wWs8).cooldown_until =
        (7 : ℤ) + wCfg7.fail_cooldown ∧
     (iterFailW wCfg7 id 7 1 1 wCfg7.fail_streak_max wWs8).fail_streak = 0) :=
  have h := circuit_breaker (C := ℤ) wCfg7 id 1 1
  ⟨h.1 5 none wWs7 (by decide),
   h.2.1 7 wWs8b (by decide) (by decide) (by decide) (by decide),
   h.2.2.1 7 none wWs8 (by decide) (by decide) (by decide),
   h.2.2.2 7 wWs8 (by decide) (by decide) (by decide) (by decide) (by decide)⟩

theorem enrichment_cache_hit_witness :
    fetch_weather wCfg7 id 20 1 1 none wWs7b = (some wPay7, wWs7b, false) ∧
    rowWeather wCfg7 id 300 20 (fun _ => none) wSt7 (some (1, 1)) =
      (some wPay7, wSt7) :=
  have h := enrichment_cache_hit wCfg7 id 20 1 1 none wWs7b 100 wPay7
    (by decide) (by decide) (by decide) (by decide)
  ⟨h.1, h.2 300 (fun _ => none) wSt7 wPay7 (by decide)⟩

/-! ## C9: provider calls per quantized key -/

/-- Two rows with identical (hence identically quantized) coordinates. -/
def wRows9 : List (ℤ × Option (ℤ × ℤ)) := [(0, some (1, 1)), (0, some (1, 1))]

/-- Empty pass state over a clean client state. -/
def wSt9 : PassState ℤ := ⟨[], 0, wWs8, []⟩

/-- Counterexample to C9 as stated: with a failing provider, two rows
that quantize to the same cache key cause two provider calls — the
failed first call caches nothing, so the second row misses both caches
and calls again. -/
theorem enrichment_two_calls_same_key :
    (∀ r ∈ wRows9, r.2 = some (1, 1)) ∧
    callsFor ((1 : ℤ), (1 : ℤ))
        (mapPassW wCfg7 id 300 (fun _ => none) wRows9 wSt9).plog = 2 ∧
    ¬ callsFor ((1 : ℤ), (1 : ℤ))
        (mapPassW wCfg7 id 300 (fun _ => none) wRows9 wSt9).plog ≤ 1 := by
  decide

theorem mem_map_fst_ainsert_of_mem {κ α : Type} [DecidableEq κ]
    (l : List (κ × α)) (k' : κ) (v : α) (k : κ)
    (h : k ∈ l.map Prod.fst) : k ∈ (ainsert l k' v).map Prod.fst := by
  rw [ainsert_map_fst]
  split
  · exact h
  · exact List.mem_append_left _ h

theorem mem_map_fst_ainsert_self {κ α : Type} [DecidableEq κ]
    (l : List (κ × α)) (k : κ) (v : α) :
    k ∈ (ainsert l k v).map Prod.fst := by
  rw [ainsert_map_fst]
  split
  · rename_i hm
    exact hm
  · exact List.mem_append_right _ (List.mem_singleton.mpr rfl)

theorem not_mem_map_fst_of_alookup_none {κ α : Type} [DecidableEq κ]
    (l : List (κ × α)) (k : κ) (h : alookup l k = none) :
    k ∉ l.map Prod.fst := by
  intro hm
  rcases List.mem_map.mp hm with ⟨kv, hkv, hk⟩
  exact ((alookup_eq_none_iff l k).mp h kv hkv) hk

/-- When the provider is actually called and responds, `fetch_weather`
returns the built payload. -/
theorem fetch_weather_success {C : Type} [DecidableEq C] (cfg : WCfg)
    (q : C → C) (now : ℤ) (lat lon : C) (cur : Cur) (s : WState C)
    (h : (fetch_weather cfg q now lat lon (some cur) s).2.2 = true) :
    (fetch_weather cfg q now lat lon (some cur) s).1 =
      some (mkWData cur) := by
  unfold fetch_weather at h ⊢
  by_cases hen : ¬ cfg.enabled
  · rw [if_pos hen] at h
    cases h
  · rw [if_neg hen] at h ⊢
    by_cases hcd : now < s.cooldown_until
    · rw [if_pos hcd] at h
      cases h
    · rw [if_neg hcd] at h ⊢
      rcases hcg : cache_get now s.cache (q lat, q lon) with ⟨w0, c'⟩
      rw [hcg] at h
      cases w0 with
      | some d => simp at h
      | none => rfl

/-- The per-row step preserves the invariant "at most one successful
provider call for `key` so far, and once one happened the key is in the
per-file cache". -/
theorem rowWeather_succ_inv {C : Type} [DecidableEq C] (cfg : WCfg)
    (q : C → C) (maxCalls : Nat) (now : ℤ) (prov : Nat → Option Cur)
    (key : C × C) (st : PassState C) (c : Option (C × C))
    (h1 : succCallsFor key st.plog ≤ 1)
    (h2 : 1 ≤ succCallsFor key st.plog → key ∈ st.wcache.map Prod.fst) :
    succCallsFor key (rowWeather cfg q maxCalls now prov st c).2.plog ≤ 1 ∧
    (1 ≤ succCallsFor key (rowWeather cfg q maxCalls now prov st c).2.plog →
      key ∈ (rowWeather cfg q maxCalls now prov st c).2.wcache.map
        Prod.fst) := by
  cases c with
  | none => exact ⟨h1, h2⟩
  | some p =>
    obtain ⟨lat, lon⟩ := p
    unfold rowWeather
    simp only
    cases hca : alookup st.wcache (q lat, q lon) with
    | some w => exact ⟨h1, h2⟩
    | none =>
      by_cases hbud : st.weather_calls < maxCalls
      · rw [if_pos hbud]
        rcases hf : fetch_weather cfg q now (q lat) (q lon)
            (prov st.plog.length) st.ws with ⟨w, ws', called⟩
        simp only
        have hδ : succCallsFor key (st.plog ++
            (if called then [((q lat, q lon), (prov st.plog.length).isSome)]
             else [])) =
            succCallsFor key st.plog +
              (if called ∧ (q lat, q lon) = key ∧
                  (prov st.plog.length).isSome then 1 else 0) := by
          unfold succCallsFor
          rw [List.countP_append]
          cases called with
          | false => simp
          | true =>
            simp only [if_pos rfl, List.countP_cons, List.countP_nil]
            by_cases hk : (q lat, q lon) = key <;>
              cases hp : (prov st.plog.length).isSome <;>
              simp [hk, hp]
        by_cases hk : (q lat, q lon) = key
        · have hkey0 : succCallsFor key st.plog = 0 := by
            by_contra hne
            have : 1 ≤ succCallsFor key st.plog := by omega
            exact not_mem_map_fst_of_alookup_none st.wcache (q lat, q lon)
              hca (by rw [hk]; exact h2 this)
          cases w with
          | some data =>
            constructor
            · show succCallsFor key (st.plog ++ _) ≤ 1
              rw [hδ, hkey0]
              split <;> omega
            · intro _
              show key ∈ (ainsert _ (q lat, q lon) data).map Prod.fst
              rw [← hk]
              exact mem_map_fst_ainsert_self _ _ _
          | none =>
            have hδ0 : (if called ∧ (q lat, q lon) = key ∧
                (prov st.plog.length).isSome then 1 else 0) = 0 := by
              split
              · rename_i hand
                rcases hand with ⟨hcall, -, hps⟩
                rcases hps' : prov st.plog.length with _ | cur
                · rw [hps'] at hps
                  cases hps
                · exfalso
                  have hctrue : (fetch_weather cfg q now (q lat) (q lon)
                      (prov st.plog.length) st.ws).2.2 = true := by
                    rw [hf]
                    exact hcall
                  rw [hps'] at hctrue
                  have := fetch_weather_success cfg q now (q lat) (q lon)
                    cur st.ws hctrue
                  rw [← hps', hf] at this
                  cases this
              · rfl
            constructor
            · show succCallsFor key (st.plog ++ _) ≤ 1
              rw [hδ, hδ0, hkey0]
              omega
            · intro hge
              show key ∈ st.wcache.map Prod.fst
              rw [hδ, hδ0, hkey0] at hge
              omega
        · have hδ0 : (if called ∧ (q lat, q lon) = key ∧
              (prov st.plog.length).isSome then 1 else 0) = 0 := by
            split
            · rename_i hand
              exact absurd hand.2.1 hk
            · rfl
          cases w with
          | some data =>
            constructor
            · show succCallsFor key (st.plog ++ _) ≤ 1
              rw [hδ, hδ0]
              omega
            · intro hge
              show key ∈ (ainsert _ (q lat, q lon) data).map Prod.fst
              rw [hδ, hδ0] at hge
              exact mem_map_fst_ainsert_of_mem _ _ _ _ (h2 (by omega))
          | none =>
            constructor
            · show succCallsFor key (st.plog ++ _) ≤ 1
              rw [hδ, hδ0]
              omega
            · intro hge
              show key ∈ st.wcache.map Prod.fst
              rw [hδ, hδ0] at hge
              exact h2 (by omega)
      · rw [if_neg hbud]
        exact ⟨h1, h2⟩

/-- C9 (amended): within one mapping pass, for every quantized cache key
at most one successful provider call is made — the first success is
stored in the per-file cache, which is consulted before any further call
for that key. (With provider failures, later rows with the same key may
retry, bounded by the budget and the breaker.) -/
theorem enrichment_one_success_per_key {C : Type} [DecidableEq C]
    (cfg : WCfg) (q : C → C) (maxCalls : Nat) (prov : Nat → Option Cur)
    (key : C × C) :
    ∀ (rows : List (ℤ × Option (C × C))) (st : PassState C),
      succCallsFor key st.plog ≤ 1 →
      (1 ≤ succCallsFor key st.plog → key ∈ st.wcache.map Prod.fst) →
      succCallsFor key (mapPassW cfg q maxCalls prov rows st).plog ≤ 1 := by
  intro rows
  induction rows with
  | nil => intro st h1 _; exact h1
  | cons r t ih =>
    intro st h1 h2
    rcases rowWeather_succ_inv cfg q maxCalls r.1 prov key st r.2 h1 h2
      with ⟨ha, hb⟩
    exact ih _ ha hb

theorem enrichment_one_success_per_key_witness :
    succCallsFor ((1 : ℤ), (1 : ℤ))
      (mapPassW wCfg7 id 300
        (fun _ => some ⟨some 20, none, none, none, none⟩) wRows9 wSt9).plog
      ≤ 1 :=
  enrichment_one_success_per_key wCfg7 id 300
    (fun _ => some ⟨some 20, none, none, none, none⟩) ((1 : ℤ), (1 : ℤ))
    wRows9 wSt9 (by decide) (by decide)

end TP3
